import Mathlib

/-!
Shallow embedding of the shufffle-app core (src/src/pages/Index.tsx and the
extended variant src/unnamed/part_000): the clip catalog, the randomized
sequence generator, the FFmpeg-backed export of one sequence, and the
sequential batch download.

Modelling conventions:
* clip ids are `Nat` (the source uses opaque unique strings);
* durations are `ℚ` (the source uses JS numbers holding seconds);
* a clip's optional `file` is its raw bytes (`List Nat`), `fetchFile` is the
  identity on those bytes;
* the generator's randomness (`Math.random`) is an explicit tape of `Draw`
  records, one per loop iteration; array indexing `arr[floor(rand*len)]`
  becomes `arr.getD (k % len) _`, and the random comparator shuffle
  `[...xs].sort(() => Math.random() - 0.5)` becomes an arbitrary permutation
  realized by repeated indexed selection (`pickShuffle`);
* the FFmpeg virtual working area is an association list from structured
  names (`input i` ↦ "input{i}.mp4", `listFile` ↦ "list.txt",
  `output` ↦ "output.mp4") to entries; `exec` is parametrized by the external
  engine, a function from the concatenated input buffers to an optional
  output buffer (`none` = engine failure), and every engine invocation is
  recorded in `execLog`.
-/

/-- The three clip roles of the source's `VideoClip['type']`. -/
inductive ClipType
  | hook
  | sellingPoint
  | cta
deriving DecidableEq, Inhabited

/-- The source's `VideoClip` record. -/
structure VideoClip where
  id : Nat
  name : String
  duration : ℚ
  type : ClipType
  file : Option (List Nat)
deriving DecidableEq, Inhabited

/-- The source's `Sequence` record. -/
structure Sequence where
  id : Nat
  clips : List VideoClip
  duration : ℚ
deriving DecidableEq, Inhabited

/-- One iteration's worth of `Math.random()` outcomes in `generateSequences`. -/
structure Draw where
  hookIdx : Nat
  ctaIdx : Nat
  spCount : Nat
  spKs : List Nat
deriving DecidableEq, Inhabited

/-- Dedup key: (hook id, sorted selling-point ids, cta id); the source joins
these with a pipe into one string. -/
abbrev DedupKey := Nat × List Nat × Nat

/-- Insert into a sorted list of ids (helper for `sortIds`). -/
def insertId (x : Nat) : List Nat → List Nat
  | [] => [x]
  | y :: ys => if x ≤ y then x :: y :: ys else y :: insertId x ys

/-- Canonical sorting of the chosen selling-point ids, the model of the
source's `.sort()` on the id array inside the dedup key. -/
def sortIds : List Nat → List Nat
  | [] => []
  | x :: xs => insertId x (sortIds xs)

/-- Model of `[...sellingPoints].sort(() => Math.random() - 0.5)`: the random
comparator produces some permutation of the array; we realize an arbitrary
permutation by repeatedly selecting the (k % remaining)-th element. -/
def pickShuffle : List Nat → List VideoClip → List VideoClip
  | _, [] => []
  | [], l => l
  | k :: ks, a :: as =>
      (a :: as).getD (k % (a :: as).length) a ::
        pickShuffle ks ((a :: as).eraseIdx (k % (a :: as).length))
termination_by _ l => l.length
decreasing_by
  simp only [List.length_eraseIdx]
  split
  · omega
  · rename_i h
    exact absurd (Nat.mod_lt _ (by simp)) h

/-- Placeholder clip used as the (never reached) default of `List.getD`. -/
def dummyClip : VideoClip := ⟨0, "", 0, ClipType.hook, none⟩

/-- Outcome of one `generateSequences` call under a finite random tape. -/
inductive GenOutcome
  | failure
  | pending
  | done (seqs : List Sequence)
deriving DecidableEq, Inhabited

/-- The clips of the catalog with type `hook`. -/
def hooksOf (clips : List VideoClip) : List VideoClip :=
  clips.filter (·.type = ClipType.hook)

/-- The clips of the catalog with type `selling-point`. -/
def spsOf (clips : List VideoClip) : List VideoClip :=
  clips.filter (·.type = ClipType.sellingPoint)

/-- The clips of the catalog with type `cta`. -/
def ctasOf (clips : List VideoClip) : List VideoClip :=
  clips.filter (·.type = ClipType.cta)

/-- `maxCombinations = hooks.length * ctas.length * 2 ^ sellingPoints.length`
from the source. -/
def maxCombinations (clips : List VideoClip) : Nat :=
  (hooksOf clips).length * (ctasOf clips).length * 2 ^ (spsOf clips).length

/-- `hooks[Math.floor(Math.random() * hooks.length)]` for one draw. -/
def drawHook (hooks : List VideoClip) (d : Draw) : VideoClip :=
  hooks.getD (d.hookIdx % hooks.length) dummyClip

/-- `ctas[Math.floor(Math.random() * ctas.length)]` for one draw. -/
def drawCTA (ctas : List VideoClip) (d : Draw) : VideoClip :=
  ctas.getD (d.ctaIdx % ctas.length) dummyClip

/-- The shuffled selling-point prefix of one draw:
`[...sellingPoints].sort(random).slice(0, min(floor(random*3)+1, len))`. -/
def drawSPs (sps : List VideoClip) (d : Draw) : List VideoClip :=
  (pickShuffle d.spKs sps).take (min (d.spCount % 3 + 1) sps.length)

/-- The dedup key of one draw:
`[hookId, ...spIds.sort(), ctaId].join('|')` in the source. -/
def drawKey (hooks sps ctas : List VideoClip) (d : Draw) : DedupKey :=
  ((drawHook hooks d).id, sortIds ((drawSPs sps d).map (·.id)), (drawCTA ctas d).id)

/-- The clip list `[selectedHook, ...shuffledSellingPoints, selectedCTA]`
assembled from one draw. -/
def drawClips (hooks sps ctas : List VideoClip) (d : Draw) : List VideoClip :=
  drawHook hooks d :: drawSPs sps d ++ [drawCTA ctas d]

/-- One loop body of `generateSequences`: draw hook, CTA and a shuffled
selling-point prefix, build the dedup key, and either reject the draw or
append a new `Sequence` (with id `sequence-(len+1)` and duration
`reduce((acc, clip) => acc + clip.duration, 0)`). The loop is driven by the
remaining random tape; an exhausted tape with the target not yet reached is
reported as `pending` (the source loop would keep drawing). -/
def genAux (hooks sps ctas : List VideoClip) (target : Nat) (tape : List Draw)
    (used : List DedupKey) (acc : List Sequence) : GenOutcome :=
  if target ≤ acc.length then .done acc
  else
    match tape with
    | [] => .pending
    | d :: rest =>
      if drawKey hooks sps ctas d ∈ used then
        genAux hooks sps ctas target rest used acc
      else
        genAux hooks sps ctas target rest (drawKey hooks sps ctas d :: used)
          (acc ++ [⟨acc.length + 1, drawClips hooks sps ctas d,
            (drawClips hooks sps ctas d).foldl (fun a c => a + c.duration) 0⟩])

/-- The source's `generateSequences`, over an explicit catalog and random
tape. Both early returns (empty catalog, and missing hook or CTA) show an
error toast and leave the sequence list untouched; the spec groups both
under the `InsufficientInput` failure, modelled here by `GenOutcome.failure`. -/
def generateSequences (clips : List VideoClip) (tape : List Draw) : GenOutcome :=
  if clips.isEmpty then .failure
  else if (hooksOf clips).isEmpty || (ctasOf clips).isEmpty then .failure
  else
    genAux (hooksOf clips) (spsOf clips) (ctasOf clips)
      (min 10 (maxCombinations clips)) tape [] []

/-- The page's state relevant to the catalog and generator claims. -/
structure AppState where
  availableClips : List VideoClip
  sequences : List Sequence
deriving DecidableEq, Inhabited

/-- The `setSequences(newSequences)` effect of a `generateSequences` call:
only a completed generation replaces the sequence list. -/
def generateUpdate (st : AppState) (tape : List Draw) : AppState :=
  match generateSequences st.availableClips tape with
  | .done out => { st with sequences := out }
  | _ => st

/-- The source's `updateClipType` (retag). -/
def updateClipType (clipId : Nat) (newType : ClipType)
    (clips : List VideoClip) : List VideoClip :=
  clips.map fun clip => if clip.id = clipId then { clip with type := newType } else clip

/-- The state effect of `updateClipType`: it only rewrites `availableClips`. -/
def retagUpdate (clipId : Nat) (newType : ClipType) (st : AppState) : AppState :=
  { st with availableClips := updateClipType clipId newType st.availableClips }

/-- The dedup key recovered from a produced sequence's clip list. -/
def keyOfSeq (s : Sequence) : DedupKey :=
  (((s.clips.head?).map (·.id)).getD 0,
   sortIds (((s.clips.drop 1).dropLast).map (·.id)),
   (((s.clips.getLast?).map (·.id)).getD 0))

/-- The middle clips of a sequence: everything strictly between the first
and last clip. -/
def midClips (s : Sequence) : List VideoClip := (s.clips.drop 1).dropLast

/-- Shape predicate "[hook, selling-point x lo..3, cta]" on a sequence: at
least two clips, hook first, CTA last, and between `lo` and 3 selling-points
strictly in between. -/
def seqShape (lo : Nat) (s : Sequence) : Prop :=
  2 ≤ s.clips.length ∧
  s.clips.head?.map (·.type) = some ClipType.hook ∧
  s.clips.getLast?.map (·.type) = some ClipType.cta ∧
  (∀ c ∈ midClips s, c.type = ClipType.sellingPoint) ∧
  lo ≤ (midClips s).length ∧ (midClips s).length ≤ 3

instance seqShapeDecidable (lo : Nat) (s : Sequence) : Decidable (seqShape lo s) :=
  inferInstanceAs (Decidable (_ ∧ _ ∧ _ ∧ _ ∧ _ ∧ _))

/-- Raw media bytes (opaque to the core). -/
abbrev Bytes := List Nat

/-- Names in the FFmpeg working area: `input i` stands for "input{i}.mp4",
`listFile` for "list.txt", `output` for "output.mp4". -/
inductive FsName
  | input (i : Nat)
  | listFile
  | output
deriving DecidableEq, Inhabited

/-- A working-area entry: raw media bytes, or the concat manifest (modelled
as the list of names its `file <name>` lines reference, in order). -/
inductive FVal
  | bin (b : Bytes)
  | txt (names : List FsName)
deriving DecidableEq, Inhabited

/-- The FFmpeg working area; the most recent write for a name shadows
earlier ones. -/
abbrev WorkArea := List (FsName × FVal)

/-- `ffmpeg.readFile`: the most recent entry for the name. -/
def readFS : WorkArea → FsName → Option FVal
  | [], _ => none
  | e :: rest, n => if e.1 = n then some e.2 else readFS rest n

/-- `ffmpeg.writeFile`: record the new entry, shadowing older ones. -/
def writeFS (fs : WorkArea) (n : FsName) (v : FVal) : WorkArea := (n, v) :: fs

/-- `ffmpeg.deleteFile`: remove every entry for the name. -/
def deleteFS : WorkArea → FsName → WorkArea
  | [], _ => []
  | e :: rest, n => if e.1 = n then deleteFS rest n else e :: deleteFS rest n

/-- State of the Muxer adapter: working area plus the log of engine
invocations (each entry is the ordered list of input buffers handed to the
engine by one `exec`). -/
structure MuxState where
  fs : WorkArea
  execLog : List (List Bytes)
deriving DecidableEq, Inhabited

/-- The export-side error kinds: `missingSource` is the source's thrown
`Missing file for clip: <name>`, `engineError` a failing `ffmpeg.exec`. -/
inductive ExpError
  | missingSource (clipName : String)
  | engineError
deriving DecidableEq, Inhabited

/-- The external decode/encode engine: ordered input buffers to merged
output bytes, or `none` when the engine invocation throws. -/
abbrev Engine := List Bytes → Option Bytes

/-- The first loop of `exportSequence`: for each clip in order, throw on a
missing file, else `fetchFile` the bytes and `writeFile('input{i}.mp4')`,
collecting the manifest lines. -/
def writeInputs : List VideoClip → Nat → WorkArea →
    Except ExpError (List FsName) × WorkArea
  | [], _, fs => (.ok [], fs)
  | c :: rest, i, fs =>
    match c.file with
    | none => (.error (.missingSource c.name), fs)
    | some b =>
      match writeInputs rest (i + 1) (writeFS fs (.input i) (.bin b)) with
      | (.ok names, fs2) => (.ok (.input i :: names), fs2)
      | (.error e, fs2) => (.error e, fs2)

/-- Read the ordered input buffers listed in the manifest. -/
def readAll : List FsName → WorkArea → Option (List Bytes)
  | [], _ => some []
  | n :: rest, fs =>
    match readFS fs n with
    | some (.bin b) => (readAll rest fs).map (b :: ·)
    | _ => none

/-- The fixed `ffmpeg.exec(['-f','concat','-safe','0','-i','list.txt','-c',
'copy','output.mp4'])` command: read the manifest and its listed inputs,
invoke the engine (logging the invocation), and write the merged output.
The two defensive `.engineError` fallbacks for an absent manifest or input
are unreachable in the adapter's flows, which always write them first. -/
def execConcat (engine : Engine) (st : MuxState) :
    Except ExpError Unit × MuxState :=
  match readFS st.fs .listFile with
  | some (.txt names) =>
    match readAll names st.fs with
    | some inputs =>
      match engine inputs with
      | some out =>
        (.ok (), ⟨writeFS st.fs .output (.bin out), st.execLog ++ [inputs]⟩)
      | none => (.error .engineError, ⟨st.fs, st.execLog ++ [inputs]⟩)
    | none => (.error .engineError, st)
  | _ => (.error .engineError, st)

/-- The cleanup loop `for i in 0..n-1: deleteFile('input{i}.mp4')`. -/
def deleteInputs (n : Nat) (fs : WorkArea) : WorkArea :=
  (List.range n).foldl (fun a i => deleteFS a (.input i)) fs

/-- The manifest names `input i, input (i+1), ...`, one per clip. -/
def inputNamesFrom : Nat → List VideoClip → List FsName
  | _, [] => []
  | i, _ :: rest => FsName.input i :: inputNamesFrom (i + 1) rest

/-- The artifact name of one export: `restitched <index+1>.mp4` in batch
mode, `restitched <sequence id>.mp4` for the single-export download. -/
def exportName (seq : Sequence) (index : Option Nat) : String :=
  match index with
  | some i => "restitched " ++ toString (i + 1) ++ ".mp4"
  | none => "restitched " ++ toString seq.id ++ ".mp4"

/-- The source's `exportSequence(sequence, index?)`. In batch mode
(`index = some i`) the function returns the named buffer immediately after
reading the output: the cleanup below the early `return` never runs. In
single mode (`index = none`) the buffer is delivered as a download named
from the sequence id, after deleting every scratch entry. The source's
`catch` block only logs and rethrows, so no failure path cleans up. -/
def exportSequenceM (engine : Engine) (seq : Sequence) (index : Option Nat)
    (st : MuxState) : Except ExpError (String × Bytes) × MuxState :=
  match writeInputs seq.clips 0 st.fs with
  | (.error e, fs1) => (.error e, ⟨fs1, st.execLog⟩)
  | (.ok names, fs1) =>
    match execConcat engine ⟨writeFS fs1 .listFile (.txt names), st.execLog⟩ with
    | (.error e, st2) => (.error e, st2)
    | (.ok _, st2) =>
      match readFS st2.fs .output with
      | some (.bin out) =>
        match index with
        | some i => (.ok (exportName seq (some i), out), st2)
        | none =>
          (.ok (exportName seq none, out),
            ⟨deleteFS (deleteFS (deleteInputs seq.clips.length st2.fs)
              .listFile) .output, st2.execLog⟩)
      | _ => (.error .engineError, st2)

/-- Result of `downloadAllSequences`: blocked by the empty-list guard,
aborted at the first failing export, or one archive entry per sequence. -/
inductive BatchResult
  | blocked
  | failed (e : ExpError)
  | archive (entries : List (String × Bytes))
deriving DecidableEq, Inhabited

/-- The `for` loop of `downloadAllSequences`: strictly sequential exports in
list order with batch indices, zip entries accumulated; the first failure
aborts the loop (its error reaches the catch block, discarding the collected
entries). -/
def downloadLoop (engine : Engine) : List Sequence → Nat →
    List (String × Bytes) → MuxState →
    Except ExpError (List (String × Bytes)) × MuxState
  | [], _, entries, st => (.ok entries, st)
  | seq :: rest, i, entries, st =>
    match exportSequenceM engine seq (some i) st with
    | (.ok r, st2) =>
      downloadLoop engine rest (i + 1)
        (entries ++ [("restitched " ++ toString (i + 1) ++ ".mp4", r.2)]) st2
    | (.error e, st2) => (.error e, st2)

/-- The source's `downloadAllSequences`: the empty-list guard, then the
sequential export loop; a failing export reaches the catch block and no
archive is produced. -/
def downloadAllSequences (engine : Engine) (sequences : List Sequence)
    (st : MuxState) : BatchResult × MuxState :=
  if sequences.isEmpty then (.blocked, st)
  else
    match downloadLoop engine sequences 0 [] st with
    | (.ok entries, st2) => (.archive entries, st2)
    | (.error e, st2) => (.failed e, st2)

/-- The ordered input buffers of one sequence's export. -/
def seqInputs (seq : Sequence) : List Bytes :=
  seq.clips.map (fun c => c.file.getD [])

/-- Pure recomputation of one export's outcome; the value returned by
`exportSequenceM` does not depend on the adapter state, because every read
hits an entry the same call has just written. -/
def exportResult (engine : Engine) (seq : Sequence) : Except ExpError Bytes :=
  match seq.clips.find? (fun c => c.file.isNone) with
  | some c => .error (.missingSource c.name)
  | none =>
    match engine (seqInputs seq) with
    | some out => .ok out
    | none => .error .engineError

/-- The engine invocations one export performs: none when a missing source
aborts before `exec`, exactly one otherwise (an invocation is logged even
when the engine then fails). -/
def seqInvocations (seq : Sequence) : List (List Bytes) :=
  match seq.clips.find? (fun c => c.file.isNone) with
  | some _ => []
  | none => [seqInputs seq]

/-- Concrete clips for the example runs and witnesses. -/
def hookClipA : VideoClip := ⟨1, "hookA", 1, ClipType.hook, some [1]⟩

/-- Concrete CTA clip for the example runs. -/
def ctaClipA : VideoClip := ⟨2, "ctaA", 1, ClipType.cta, some [2]⟩

/-- Concrete selling-point clip for the example runs. -/
def spClipA : VideoClip := ⟨3, "spA", 1, ClipType.sellingPoint, some [3]⟩

/-- Concrete clip with no byte source. -/
def noFileClip : VideoClip := ⟨4, "nofile", 1, ClipType.sellingPoint, none⟩

/-- A catalog with one hook and one CTA and no selling points. -/
def twoClipCatalog : List VideoClip := [hookClipA, ctaClipA]

/-- A one-draw random tape. -/
def oneDrawTape : List Draw := [⟨0, 0, 0, []⟩]

/-- The sequence `generateSequences twoClipCatalog oneDrawTape` produces. -/
def twoClipSeq : Sequence := ⟨1, [hookClipA, ctaClipA], 2⟩

/-- The catalog with exactly one hook, one selling point and one CTA, on
which the generation loop can never finish: the target is
`min 10 (1*1*2^1) = 2` but only one dedup key is reachable. -/
def c2Catalog : List VideoClip := [hookClipA, spClipA, ctaClipA]

/-- A total engine used in the concrete runs. -/
def engineOk : Engine := fun inputs => some inputs.flatten

/-- A fully file-backed sequence. -/
def goodSeq : Sequence := ⟨7, [hookClipA, ctaClipA], 2⟩

/-- A sequence whose second clip has no byte source. -/
def badSeq : Sequence := ⟨8, [hookClipA, noFileClip], 2⟩

/-- A failing sequence with id 101. -/
def badSeqA : Sequence := ⟨101, [noFileClip], 1⟩

/-- A failing sequence with id 202 and the same failing clip. -/
def badSeqB : Sequence := ⟨202, [noFileClip], 1⟩

/-- A sequence is a possible outcome of one draw step over the partitioned
catalog, with its duration computed by the source's `reduce`. -/
def DrawnFrom (hooks sps ctas : List VideoClip) (s : Sequence) : Prop :=
  ∃ d : Draw, s.clips = drawClips hooks sps ctas d ∧
    s.duration = s.clips.foldl (fun a c => a + c.duration) 0

/-- Equality on export results is decidable. -/
instance exceptDecidableEq {ε α : Type} [DecidableEq ε] [DecidableEq α] :
    DecidableEq (Except ε α) := fun x y =>
  match x, y with
  | .ok a, .ok b => decidable_of_iff (a = b) (by simp)
  | .ok _, .error _ => isFalse (by simp)
  | .error _, .ok _ => isFalse (by simp)
  | .error e, .error f => decidable_of_iff (e = f) (by simp)

/-- Indexing with `k % l.length` into a non-empty list stays inside it. -/
lemma getD_mod_mem {l : List VideoClip} (h : l ≠ []) (k : Nat) (d : VideoClip) :
    l.getD (k % l.length) d ∈ l := by
  have hl : 0 < l.length := List.length_pos.mpr h
  have hk : k % l.length < l.length := Nat.mod_lt _ hl
  rw [List.getD_eq_getElem l d hk]
  exact List.getElem_mem hk

/-- Selecting an element and the remainder is a permutation of the list. -/
lemma cons_eraseIdx_perm (l : List VideoClip) (i : Nat) (h : i < l.length)
    (d : VideoClip) : (l.getD i d :: l.eraseIdx i).Perm l := by
  rw [List.getD_eq_getElem l d h, List.eraseIdx_eq_take_drop_succ]
  refine List.perm_middle.symm.trans ?_
  rw [List.getElem_cons_drop l i h, List.take_append_drop]

/-- The random-comparator shuffle model produces a permutation of its input. -/
lemma pickShuffle_perm : ∀ (ks : List Nat) (l : List VideoClip),
    (pickShuffle ks l).Perm l
  | _, [] => by simp [pickShuffle]
  | [], _ :: _ => by simp [pickShuffle]
  | k :: ks, a :: as => by
    rw [pickShuffle]
    have hlt : k % (a :: as).length < (a :: as).length := Nat.mod_lt _ (by simp)
    have hrec := pickShuffle_perm ks ((a :: as).eraseIdx (k % (a :: as).length))
    exact (hrec.cons _).trans (cons_eraseIdx_perm _ _ hlt _)
termination_by _ l => l.length
decreasing_by
  simp only [List.length_eraseIdx]
  split
  · omega
  · rename_i h
    exact absurd (Nat.mod_lt _ (by simp)) h

/-- Membership in the drawn hook list. -/
lemma drawHook_mem {hooks : List VideoClip} (h : hooks ≠ []) (d : Draw) :
    drawHook hooks d ∈ hooks := getD_mod_mem h _ _

/-- Membership in the drawn CTA list. -/
lemma drawCTA_mem {ctas : List VideoClip} (h : ctas ≠ []) (d : Draw) :
    drawCTA ctas d ∈ ctas := getD_mod_mem h _ _

/-- Every drawn selling point comes from the selling-point partition. -/
lemma drawSPs_subset {sps : List VideoClip} (d : Draw) :
    ∀ c ∈ drawSPs sps d, c ∈ sps := by
  intro c hc
  have := List.mem_of_mem_take hc
  exact (pickShuffle_perm d.spKs sps).mem_iff.mp this

/-- Length of the drawn selling-point prefix. -/
lemma drawSPs_length (sps : List VideoClip) (d : Draw) :
    (drawSPs sps d).length = min (d.spCount % 3 + 1) sps.length := by
  rw [drawSPs, List.length_take, (pickShuffle_perm d.spKs sps).length_eq]
  omega

/-- The dedup key recovered from the assembled sequence is the drawn key. -/
lemma keyOfSeq_drawClips (hooks sps ctas : List VideoClip) (d : Draw)
    (n : Nat) (q : ℚ) :
    keyOfSeq ⟨n, drawClips hooks sps ctas d, q⟩ = drawKey hooks sps ctas d := by
  have hlast : (drawClips hooks sps ctas d).getLast? = some (drawCTA ctas d) := by
    rw [drawClips, List.getLast?_concat]
  have hhead : (drawClips hooks sps ctas d).head? = some (drawHook hooks d) := by
    rw [drawClips, List.cons_append, List.head?_cons]
  have hmid : ((drawClips hooks sps ctas d).drop 1).dropLast = drawSPs sps d := by
    rw [drawClips, List.cons_append, List.drop_one, List.tail_cons,
      List.dropLast_concat]
  simp only [keyOfSeq, hlast, hhead, hmid, drawKey]
  rfl

/-- Loop invariant of `genAux`: a completed generation has exactly `target`
sequences, each drawn from the partitions, with pairwise-distinct dedup keys. -/
lemma genAux_done_inv (hooks sps ctas : List VideoClip) (target : Nat)
    (tape : List Draw) :
    ∀ (used : List DedupKey) (acc : List Sequence) (out : List Sequence),
      genAux hooks sps ctas target tape used acc = .done out →
      acc.length ≤ target →
      (∀ s ∈ acc, DrawnFrom hooks sps ctas s) →
      (acc.map keyOfSeq).Nodup →
      (∀ k ∈ acc.map keyOfSeq, k ∈ used) →
      out.length = target ∧ (∀ s ∈ out, DrawnFrom hooks sps ctas s) ∧
        (out.map keyOfSeq).Nodup := by
  induction tape with
  | nil =>
    intro used acc out heq hle hdraw hnd hsub
    rw [genAux.eq_def] at heq
    split at heq
    · rename_i hge
      cases heq
      exact ⟨le_antisymm hle hge, hdraw, hnd⟩
    · exact absurd heq (by simp)
  | cons d rest ih =>
    intro used acc out heq hle hdraw hnd hsub
    rw [genAux.eq_def] at heq
    split at heq
    · rename_i hge
      cases heq
      exact ⟨le_antisymm hle hge, hdraw, hnd⟩
    · rename_i hlt
      dsimp only at heq
      split at heq
      · exact ih used acc out heq hle hdraw hnd hsub
      · rename_i hnew
        have hkey : keyOfSeq ⟨acc.length + 1, drawClips hooks sps ctas d,
            (drawClips hooks sps ctas d).foldl (fun a c => a + c.duration) 0⟩
            = drawKey hooks sps ctas d := keyOfSeq_drawClips ..
        refine ih _ _ out heq ?_ ?_ ?_ ?_
        · simp only [List.length_append, List.length_cons, List.length_nil]
          omega
        · intro s hs
          rcases List.mem_append.mp hs with hs | hs
          · exact hdraw s hs
          · rcases List.mem_singleton.mp hs with rfl
            exact ⟨d, rfl, rfl⟩
        · rw [List.map_append, List.map_singleton, hkey]
          rw [List.nodup_append]
          refine ⟨hnd, List.nodup_singleton _, ?_⟩
          intro k hk hk'
          rcases List.mem_singleton.mp hk' with rfl
          exact hnew (hsub _ hk)
        · intro k hk
          rw [List.map_append, List.map_singleton, hkey] at hk
          rcases List.mem_append.mp hk with hk | hk
          · exact List.mem_cons_of_mem _ (hsub _ hk)
          · rcases List.mem_singleton.mp hk with rfl
            exact List.mem_cons_self _ _

/-- A completed `generateSequences` run passed both input guards and ran the
loop on the three partitions with target `min 10 maxCombinations`. -/
lemma generate_done_elim {clips : List VideoClip} {tape : List Draw}
    {out : List Sequence} (h : generateSequences clips tape = .done out) :
    hooksOf clips ≠ [] ∧ ctasOf clips ≠ [] ∧
      genAux (hooksOf clips) (spsOf clips) (ctasOf clips)
        (min 10 (maxCombinations clips)) tape [] [] = .done out := by
  rw [generateSequences] at h
  split at h
  · cases h
  · split at h
    · cases h
    · rename_i hguard
      rw [Bool.or_eq_true, List.isEmpty_iff, List.isEmpty_iff] at hguard
      push_neg at hguard
      exact ⟨hguard.1, hguard.2, h⟩

/-- Members of the hook partition have type hook. -/
lemma hooksOf_type {clips : List VideoClip} :
    ∀ c ∈ hooksOf clips, c.type = ClipType.hook := by
  intro c hc
  simp only [hooksOf, List.mem_filter, decide_eq_true_eq] at hc
  exact hc.2

/-- Members of the selling-point partition have type selling-point. -/
lemma spsOf_type {clips : List VideoClip} :
    ∀ c ∈ spsOf clips, c.type = ClipType.sellingPoint := by
  intro c hc
  simp only [spsOf, List.mem_filter, decide_eq_true_eq] at hc
  exact hc.2

/-- Members of the CTA partition have type cta. -/
lemma ctasOf_type {clips : List VideoClip} :
    ∀ c ∈ ctasOf clips, c.type = ClipType.cta := by
  intro c hc
  simp only [ctasOf, List.mem_filter, decide_eq_true_eq] at hc
  exact hc.2

/-- The hook partition is part of the catalog. -/
lemma hooksOf_subset {clips : List VideoClip} :
    ∀ c ∈ hooksOf clips, c ∈ clips := fun _ hc => List.mem_of_mem_filter hc

/-- The selling-point partition is part of the catalog. -/
lemma spsOf_subset {clips : List VideoClip} :
    ∀ c ∈ spsOf clips, c ∈ clips := fun _ hc => List.mem_of_mem_filter hc

/-- The CTA partition is part of the catalog. -/
lemma ctasOf_subset {clips : List VideoClip} :
    ∀ c ∈ ctasOf clips, c ∈ clips := fun _ hc => List.mem_of_mem_filter hc

/-- The source's duration `reduce` is the sum of the durations. -/
lemma foldl_add_duration (l : List VideoClip) (a : ℚ) :
    l.foldl (fun x c => x + c.duration) a = a + (l.map (·.duration)).sum := by
  induction l generalizing a with
  | nil => simp
  | cons c l ih => simp [ih, add_assoc]

/-- A drawn sequence matches the shape [hook, selling-point x lo..3, cta]
where lo is 0 exactly when the selling-point partition is empty. -/
lemma drawnFrom_shape {hooks sps ctas : List VideoClip}
    (hhook : ∀ c ∈ hooks, c.type = ClipType.hook)
    (hsp : ∀ c ∈ sps, c.type = ClipType.sellingPoint)
    (hcta : ∀ c ∈ ctas, c.type = ClipType.cta)
    (hh : hooks ≠ []) (hc : ctas ≠ [])
    {s : Sequence} (hd : DrawnFrom hooks sps ctas s) :
    seqShape (min 1 sps.length) s ∧ (midClips s).length ≤ sps.length := by
  obtain ⟨d, hclips, -⟩ := hd
  have hhead : s.clips.head? = some (drawHook hooks d) := by
    rw [hclips, drawClips, List.cons_append, List.head?_cons]
  have hlast : s.clips.getLast? = some (drawCTA ctas d) := by
    rw [hclips, drawClips, List.getLast?_concat]
  have hmid : midClips s = drawSPs sps d := by
    rw [midClips, hclips, drawClips, List.cons_append, List.drop_one,
      List.tail_cons, List.dropLast_concat]
  have hlen : (drawSPs sps d).length = min (d.spCount % 3 + 1) sps.length :=
    drawSPs_length sps d
  refine ⟨⟨?_, ?_, ?_, ?_, ?_, ?_⟩, ?_⟩
  · rw [hclips, drawClips, List.cons_append]
    simp
  · rw [hhead]
    simp only [Option.map_some']
    rw [hhook _ (drawHook_mem hh d)]
  · rw [hlast]
    simp only [Option.map_some']
    rw [hcta _ (drawCTA_mem hc d)]
  · rw [hmid]
    intro c hcm
    exact hsp c (drawSPs_subset d c hcm)
  · rw [hmid, hlen]
    omega
  · rw [hmid, hlen]
    omega
  · rw [hmid, hlen]
    omega

/-- Helper run: the two-clip catalog under a one-draw tape completes with
the single sequence [hook, cta]. -/
lemma twoClip_run :
    generateSequences twoClipCatalog oneDrawTape = .done [twoClipSeq] := by
  simp [generateSequences, genAux, hooksOf, spsOf, ctasOf, maxCombinations,
    drawKey, drawClips, drawHook, drawCTA, drawSPs, pickShuffle, sortIds,
    dummyClip, twoClipCatalog, oneDrawTape, twoClipSeq, hookClipA, ctaClipA]
  norm_num

/-- C1: for every catalog with at least one hook and one CTA, a completed
`generateSequences` run returns between 1 and `min 10 maxCombinations`
sequences, no two of which share a dedup key. -/
theorem generate_count_dedup {clips : List VideoClip} {tape : List Draw}
    {out : List Sequence} (h : generateSequences clips tape = .done out) :
    1 ≤ out.length ∧ out.length ≤ min 10 (maxCombinations clips) ∧
      (out.map keyOfSeq).Nodup := by
  obtain ⟨hh, hc, haux⟩ := generate_done_elim h
  have hinv := genAux_done_inv _ _ _ _ tape [] [] out haux (Nat.zero_le _)
    (by simp) (by simp) (by simp)
  have hmaxpos : 0 < maxCombinations clips := by
    have h1 : 0 < (hooksOf clips).length := List.length_pos.mpr hh
    have h2 : 0 < (ctasOf clips).length := List.length_pos.mpr hc
    have h3 : 0 < 2 ^ (spsOf clips).length := pow_pos (by norm_num) _
    exact Nat.mul_pos (Nat.mul_pos h1 h2) h3
  refine ⟨?_, ?_, hinv.2.2⟩
  · rw [hinv.1]
    omega
  · rw [hinv.1]

/-- C1 witness: the two-clip catalog run satisfies the count and dedup
bounds. -/
theorem generate_count_dedup_witness :
    1 ≤ ([twoClipSeq] : List Sequence).length ∧
      ([twoClipSeq] : List Sequence).length ≤
        min 10 (maxCombinations twoClipCatalog) ∧
      (([twoClipSeq] : List Sequence).map keyOfSeq).Nodup :=
  generate_count_dedup twoClip_run

/-- C3 (amended): every produced sequence is [hook, selling-points, cta]
with between `min 1 |sellingPoints|` and 3 selling points strictly in the
middle, and never more middle clips than the catalog's selling-point
partition holds: the lower bound is 1 whenever the catalog has any
selling-point clip, and with no selling-point clips in the catalog the
middle is exactly empty (the `[hook, cta]` shape). -/
theorem generate_seq_shape {clips : List VideoClip} {tape : List Draw}
    {out : List Sequence} (h : generateSequences clips tape = .done out) :
    ∀ s ∈ out, seqShape (min 1 (spsOf clips).length) s ∧
      (midClips s).length ≤ (spsOf clips).length := by
  obtain ⟨hh, hc, haux⟩ := generate_done_elim h
  have hinv := genAux_done_inv _ _ _ _ tape [] [] out haux (Nat.zero_le _)
    (by simp) (by simp) (by simp)
  intro s hs
  exact drawnFrom_shape hooksOf_type spsOf_type ctasOf_type hh hc
    (hinv.2.1 s hs)

/-- C3 witness: the two-clip run's sequence matches the amended shape, with
an empty middle since the catalog has no selling-point clip. -/
theorem generate_seq_shape_witness :
    seqShape (min 1 (spsOf twoClipCatalog).length) twoClipSeq ∧
      (midClips twoClipSeq).length ≤ (spsOf twoClipCatalog).length :=
  generate_seq_shape twoClip_run twoClipSeq (by simp)

/-- C3 counterexample: with no selling-point clips in the catalog, the
produced sequence is [hook, cta] with zero clips strictly between hook and
CTA, refuting the claimed shape [hook, selling-point x 1..3, cta]. -/
theorem generate_seq_shape_cex :
    generateSequences twoClipCatalog oneDrawTape = .done [twoClipSeq] ∧
      ¬ seqShape 1 twoClipSeq :=
  ⟨twoClip_run, by decide⟩

/-- C8: each produced sequence's `duration` field is the exact sum of its
clips' durations. -/
theorem generate_duration {clips : List VideoClip} {tape : List Draw}
    {out : List Sequence} (h : generateSequences clips tape = .done out) :
    ∀ s ∈ out, s.duration = (s.clips.map (·.duration)).sum := by
  obtain ⟨hh, hc, haux⟩ := generate_done_elim h
  have hinv := genAux_done_inv _ _ _ _ tape [] [] out haux (Nat.zero_le _)
    (by simp) (by simp) (by simp)
  intro s hs
  obtain ⟨d, hclips, hdur⟩ := hinv.2.1 s hs
  rw [hdur, foldl_add_duration, zero_add]

/-- C8 witness: the two-clip run's sequence has duration 1 + 1 = 2. -/
theorem generate_duration_witness :
    twoClipSeq.duration = (twoClipSeq.clips.map (·.duration)).sum :=
  generate_duration twoClip_run twoClipSeq (by simp)

/-- C10: when the catalog's clip ids are unique, the clips inside every
produced sequence are pairwise distinct: the hook, selling points, and CTA
come from disjoint type partitions, and the selling points are a prefix of a
permutation of the selling-point partition. -/
theorem generate_clip_ids_nodup {clips : List VideoClip} {tape : List Draw}
    {out : List Sequence} (hids : (clips.map (·.id)).Nodup)
    (h : generateSequences clips tape = .done out) :
    ∀ s ∈ out, (s.clips.map (·.id)).Nodup := by
  obtain ⟨hh, hc, haux⟩ := generate_done_elim h
  have hinv := genAux_done_inv _ _ _ _ tape [] [] out haux (Nat.zero_le _)
    (by simp) (by simp) (by simp)
  intro s hs
  obtain ⟨d, hclips, -⟩ := hinv.2.1 s hs
  have hinj : ∀ x ∈ clips, ∀ y ∈ clips, x.id = y.id → x = y :=
    fun x hx y hy => List.inj_on_of_nodup_map hids hx hy
  have hkmem : drawHook (hooksOf clips) d ∈ clips :=
    hooksOf_subset _ (drawHook_mem hh d)
  have hktype : (drawHook (hooksOf clips) d).type = ClipType.hook :=
    hooksOf_type _ (drawHook_mem hh d)
  have hcmem : drawCTA (ctasOf clips) d ∈ clips :=
    ctasOf_subset _ (drawCTA_mem hc d)
  have hctype : (drawCTA (ctasOf clips) d).type = ClipType.cta :=
    ctasOf_type _ (drawCTA_mem hc d)
  have hmidmem : ∀ c ∈ drawSPs (spsOf clips) d, c ∈ clips :=
    fun c hcm => spsOf_subset _ (drawSPs_subset d c hcm)
  have hmidtype : ∀ c ∈ drawSPs (spsOf clips) d,
      c.type = ClipType.sellingPoint :=
    fun c hcm => spsOf_type _ (drawSPs_subset d c hcm)
  have hmidnodup : ((drawSPs (spsOf clips) d).map (·.id)).Nodup := by
    have h1 : ((spsOf clips).map (·.id)).Nodup :=
      hids.sublist ((List.filter_sublist _).map _)
    have h2 : ((pickShuffle d.spKs (spsOf clips)).map (·.id)).Nodup :=
      (((pickShuffle_perm d.spKs (spsOf clips)).map _).nodup_iff).mpr h1
    exact h2.sublist ((List.take_sublist _ _).map _)
  have hknotmid : (drawHook (hooksOf clips) d).id ∉
      (drawSPs (spsOf clips) d).map (·.id) := by
    intro hm
    obtain ⟨c, hcm, hcid⟩ := List.mem_map.mp hm
    have heqc := hinj _ hkmem _ (hmidmem c hcm) hcid.symm
    rw [heqc, hmidtype c hcm] at hktype
    cases hktype
  have hknecta : (drawHook (hooksOf clips) d).id ≠
      (drawCTA (ctasOf clips) d).id := by
    intro hm
    have heqc := hinj _ hkmem _ hcmem hm
    rw [heqc, hctype] at hktype
    cases hktype
  have hctanotmid : (drawCTA (ctasOf clips) d).id ∉
      (drawSPs (spsOf clips) d).map (·.id) := by
    intro hm
    obtain ⟨c, hcm, hcid⟩ := List.mem_map.mp hm
    have heqc := hinj _ hcmem _ (hmidmem c hcm) hcid.symm
    rw [heqc, hmidtype c hcm] at hctype
    cases hctype
  rw [hclips, drawClips, List.map_append, List.map_cons, List.map_singleton]
  simp only [List.nodup_append, List.nodup_cons, List.nodup_singleton,
    List.disjoint_singleton, List.mem_cons, not_or, List.not_mem_nil,
    not_false_iff, and_true, true_and]
  exact ⟨⟨hknotmid, hmidnodup⟩, List.nodup_nil,
    fun hm => hknecta hm.symm, hctanotmid⟩

/-- C10 witness: the two-clip run's sequence has pairwise-distinct clip
ids. -/
theorem generate_clip_ids_nodup_witness :
    (twoClipSeq.clips.map (·.id)).Nodup :=
  generate_clip_ids_nodup (by decide) twoClip_run twoClipSeq (by simp)

/-- On a singleton selling-point list every shuffle is that singleton. -/
lemma pickShuffle_single (ks : List Nat) (c : VideoClip) :
    pickShuffle ks [c] = [c] := by
  cases ks with
  | nil => simp [pickShuffle]
  | cons k ks => simp [pickShuffle, Nat.mod_one]

/-- Every draw over the one-hook, one-selling-point, one-CTA partition
produces the same dedup key: the selling-point count is always exactly one. -/
lemma c2_drawKey (d : Draw) :
    drawKey [hookClipA] [spClipA] [ctaClipA] d = (1, [3], 2) := by
  have hmin : min (d.spCount % 3 + 1) ([spClipA] : List VideoClip).length = 1 := by
    simp only [List.length_singleton]
    omega
  rw [drawKey, drawHook, drawCTA, drawSPs, pickShuffle_single, hmin]
  simp [Nat.mod_one, hookClipA, spClipA, ctaClipA, sortIds, insertId]

/-- With target 2 but a single reachable key, `genAux` can never complete:
whatever the remaining tape, it reports the loop still pending. -/
lemma c2_genAux_pending :
    ∀ (tape : List Draw) (used : List DedupKey) (acc : List Sequence),
      acc.length ≤ 1 →
      (acc.length = 1 → ((1 : Nat), ([3] : List Nat), (2 : Nat)) ∈ used) →
      genAux [hookClipA] [spClipA] [ctaClipA] 2 tape used acc = .pending := by
  intro tape
  induction tape with
  | nil =>
    intro used acc h1 _
    rw [genAux.eq_def, if_neg (by omega)]
  | cons d rest ih =>
    intro used acc h1 h2
    rw [genAux.eq_def, if_neg (by omega)]
    dsimp only
    rw [c2_drawKey d]
    by_cases hel : ((1 : Nat), ([3] : List Nat), (2 : Nat)) ∈ used
    · rw [if_pos hel]
      exact ih used acc h1 h2
    · rw [if_neg hel]
      have hzero : acc.length = 0 := by
        rcases Nat.lt_or_ge acc.length 1 with hlt | hge
        · omega
        · exact absurd (h2 (by omega)) hel
      refine ih _ _ ?_ ?_
      · simp [hzero]
      · intro _
        exact List.mem_cons_self _ _

/-- C2 (the code's violation of the termination guarantee): on the catalog
with exactly one hook, one selling point and one CTA, `generateSequences`
never completes. The target count is `min 10 (1*1*2^1) = 2`, but every draw
selects exactly one selling point, so only one dedup key is reachable: for
every realization of the random choices the loop is still running when the
tape ends. -/
theorem generate_c2_nonterminating (tape : List Draw) :
    generateSequences c2Catalog tape = .pending := by
  have hred : generateSequences c2Catalog tape
      = genAux [hookClipA] [spClipA] [ctaClipA] 2 tape [] [] := rfl
  rw [hred]
  exact c2_genAux_pending tape [] [] (by simp) (by simp)

/-- C4: a catalog with no hook or no CTA makes `generateSequences` fail with
the insufficient-input error, and the page state, in particular the existing
sequence list, is left unchanged. -/
theorem generate_insufficient (tape : List Draw) (st : AppState)
    (h : hooksOf st.availableClips = [] ∨ ctasOf st.availableClips = []) :
    generateSequences st.availableClips tape = .failure ∧
      generateUpdate st tape = st := by
  have hfail : generateSequences st.availableClips tape = .failure := by
    rw [generateSequences]
    split
    · rfl
    · split
      · rfl
      · rename_i hguard
        exfalso
        apply hguard
        rcases h with h | h
        · simp [h]
        · simp [h]
  refine ⟨hfail, ?_⟩
  rw [generateUpdate, hfail]

/-- C4 witness: a selling-point-only catalog fails and keeps the state. -/
theorem generate_insufficient_witness :
    generateSequences (AppState.mk [spClipA] [twoClipSeq]).availableClips
        oneDrawTape = .failure ∧
      generateUpdate (AppState.mk [spClipA] [twoClipSeq]) oneDrawTape
        = AppState.mk [spClipA] [twoClipSeq] :=
  generate_insufficient oneDrawTape (AppState.mk [spClipA] [twoClipSeq])
    (Or.inl (by decide))

/-- Pointwise description of `updateClipType`: each catalog position keeps
its id, name, duration and file; only the type of the matching clip is
replaced, and non-matching clips are returned unchanged. -/
lemma updateClipType_forall₂ (clipId : Nat) (newType : ClipType) :
    ∀ clips : List VideoClip,
      List.Forall₂ (fun orig res =>
        res.id = orig.id ∧ res.name = orig.name ∧
        res.duration = orig.duration ∧ res.file = orig.file ∧
        res.type = (if orig.id = clipId then newType else orig.type) ∧
        (orig.id ≠ clipId → res = orig))
      clips (updateClipType clipId newType clips)
  | [] => List.Forall₂.nil
  | c :: rest => by
    rw [updateClipType, List.map_cons]
    refine List.Forall₂.cons ?_ ?_
    · by_cases hc : c.id = clipId
      · simp [hc]
      · simp [hc]
    · have hr := updateClipType_forall₂ clipId newType rest
      rwa [updateClipType] at hr

/-- `updateClipType` with an absent id is a no-op. -/
lemma updateClipType_absent (clipId : Nat) (newType : ClipType) :
    ∀ clips : List VideoClip, clipId ∉ clips.map (·.id) →
      updateClipType clipId newType clips = clips
  | [], _ => rfl
  | c :: rest, h => by
    rw [updateClipType, List.map_cons]
    have hc : ¬ c.id = clipId := by
      intro hcc
      exact h (by rw [List.map_cons, ← hcc]; exact List.mem_cons_self _ _)
    rw [if_neg hc]
    have hr := updateClipType_absent clipId newType rest
      (fun hm => h (by rw [List.map_cons]; exact List.mem_cons_of_mem _ hm))
    rw [updateClipType] at hr
    rw [hr]

/-- C9: retag replaces only the `type` field of the clips matching the id
(keeping id, name, duration and file, and returning non-matching clips
unchanged), is a no-op when the id is absent, and never touches the
already-generated sequence list. -/
theorem retag_spec (clipId : Nat) (newType : ClipType) (st : AppState) :
    List.Forall₂ (fun orig res =>
        res.id = orig.id ∧ res.name = orig.name ∧
        res.duration = orig.duration ∧ res.file = orig.file ∧
        res.type = (if orig.id = clipId then newType else orig.type) ∧
        (orig.id ≠ clipId → res = orig))
      st.availableClips (updateClipType clipId newType st.availableClips) ∧
    (clipId ∉ st.availableClips.map (·.id) →
      updateClipType clipId newType st.availableClips = st.availableClips) ∧
    (retagUpdate clipId newType st).sequences = st.sequences :=
  ⟨updateClipType_forall₂ clipId newType st.availableClips,
   updateClipType_absent clipId newType st.availableClips, rfl⟩

/-- C9 witness: retagging an absent id over the two-clip catalog changes
nothing. -/
theorem retag_spec_witness :
    updateClipType 99 ClipType.cta
        (AppState.mk twoClipCatalog [twoClipSeq]).availableClips
      = (AppState.mk twoClipCatalog [twoClipSeq]).availableClips :=
  (retag_spec 99 ClipType.cta (AppState.mk twoClipCatalog [twoClipSeq])).2.1
    (by decide)

/-- Reading after a write: the write shadows exactly its own name. -/
lemma readFS_writeFS (fs : WorkArea) (n k : FsName) (v : FVal) :
    readFS (writeFS fs n v) k = if n = k then some v else readFS fs k := rfl

/-- Reading after a delete: the deleted name is gone, others unaffected. -/
lemma readFS_deleteFS : ∀ (fs : WorkArea) (n k : FsName),
    readFS (deleteFS fs n) k = if k = n then none else readFS fs k
  | [], n, k => by
    rw [deleteFS]
    split <;> rfl
  | e :: rest, n, k => by
    rw [deleteFS]
    by_cases h1 : e.1 = n
    · rw [if_pos h1, readFS_deleteFS rest n k, readFS]
      by_cases h2 : k = n
      · rw [if_pos h2, if_pos h2]
      · rw [if_neg h2, if_neg h2, if_neg (fun hek => h2 (by rw [← hek, h1]))]
    · rw [if_neg h1, readFS]
      by_cases h2 : e.1 = k
      · rw [if_pos h2, if_neg (fun hkn => h1 (h2.trans hkn)), readFS, if_pos h2]
      · rw [if_neg h2, readFS_deleteFS rest n k, readFS, if_neg h2]

/-- A working area in which every name reads back empty is empty. -/
lemma workArea_empty_of_reads_none : ∀ fs : WorkArea,
    (∀ k, readFS fs k = none) → fs = []
  | [], _ => rfl
  | e :: _, h => by
    have he := h e.1
    rw [readFS, if_pos rfl] at he
    cases he

/-- Deleting inputs 0..n-1 removes exactly those names (hit case). -/
lemma readFS_deleteInputs_hit : ∀ (n : Nat) (fs : WorkArea) (j : Nat),
    j < n → readFS (deleteInputs n fs) (.input j) = none
  | 0, _, _, h => absurd h (Nat.not_lt_zero _)
  | n + 1, fs, j, h => by
    have hstep : deleteInputs (n + 1) fs
        = deleteFS (deleteInputs n fs) (.input n) := by
      rw [deleteInputs, deleteInputs, List.range_succ, List.foldl_append,
        List.foldl_cons, List.foldl_nil]
    rw [hstep, readFS_deleteFS]
    by_cases hj : j = n
    · rw [if_pos (by rw [hj])]
    · rw [if_neg (by simp [hj])]
      exact readFS_deleteInputs_hit n fs j (by omega)

/-- Deleting inputs 0..n-1 leaves every other name unaffected. -/
lemma readFS_deleteInputs_miss : ∀ (n : Nat) (fs : WorkArea) (k : FsName),
    (∀ j, j < n → k ≠ .input j) → readFS (deleteInputs n fs) k = readFS fs k
  | 0, fs, k, _ => by
    rw [deleteInputs, List.range_zero, List.foldl_nil]
  | n + 1, fs, k, h => by
    have hstep : deleteInputs (n + 1) fs
        = deleteFS (deleteInputs n fs) (.input n) := by
      rw [deleteInputs, deleteInputs, List.range_succ, List.foldl_append,
        List.foldl_cons, List.foldl_nil]
    rw [hstep, readFS_deleteFS, if_neg (h n (Nat.lt_succ_self _))]
    exact readFS_deleteInputs_miss n fs k (fun j hj => h j (by omega))

/-- Successful registration phase: with every clip file present,
`writeInputs` returns the manifest names and a working area in which input
`i+j` holds clip j's bytes and every other name is untouched. -/
lemma writeInputs_ok : ∀ (clips : List VideoClip) (i : Nat) (fs : WorkArea),
    (∀ c ∈ clips, c.file ≠ none) →
    ∃ fs2, writeInputs clips i fs = (.ok (inputNamesFrom i clips), fs2) ∧
      (∀ j, j < clips.length →
        readFS fs2 (.input (i + j)) =
          some (.bin ((clips.getD j dummyClip).file.getD []))) ∧
      (∀ k, (∀ j, j < clips.length → k ≠ .input (i + j)) →
        readFS fs2 k = readFS fs k)
  | [], i, fs, _ => by
    refine ⟨fs, rfl, ?_, ?_⟩
    · intro j hj
      exact absurd hj (Nat.not_lt_zero _)
    · intro k _
      rfl
  | c :: rest, i, fs, hall => by
    obtain ⟨b, hb⟩ := Option.ne_none_iff_exists'.mp
      (hall c (List.mem_cons_self _ _))
    obtain ⟨fs2, heq, hhit, hmiss⟩ := writeInputs_ok rest (i + 1)
      (writeFS fs (.input i) (.bin b))
      (fun x hx => hall x (List.mem_cons_of_mem _ hx))
    refine ⟨fs2, ?_, ?_, ?_⟩
    · rw [writeInputs, hb]
      dsimp only
      rw [heq]
      rfl
    · intro j hj
      match j with
      | 0 =>
        have hk : ∀ j2, j2 < rest.length → FsName.input (i + 0) ≠
            FsName.input (i + 1 + j2) := by
          intro j2 _ hc
          rw [FsName.input.injEq] at hc
          omega
        rw [hmiss _ hk, readFS_writeFS, if_pos (by rw [Nat.add_zero])]
        rw [List.getD_cons_zero, hb]
        rfl
      | j2 + 1 =>
        have hrw : i + (j2 + 1) = i + 1 + j2 := by omega
        rw [hrw, hhit j2 (by simpa using hj), List.getD_cons_succ]
    · intro k hk
      have hk2 : ∀ j, j < rest.length → k ≠ .input (i + 1 + j) := by
        intro j hj
        have := hk (j + 1) (by simpa using hj)
        rwa [show i + (j + 1) = i + 1 + j by omega] at this
      rw [hmiss k hk2, readFS_writeFS,
        if_neg (fun hik => hk 0 (by simp) (by rw [← hik, Nat.add_zero]))]

/-- Failing registration phase: the first clip without a file aborts the
loop with its name; the inputs registered before it are in the working area
and every other name is untouched. -/
lemma writeInputs_error : ∀ (pre : List VideoClip) (bad : VideoClip)
    (post : List VideoClip) (i : Nat) (fs : WorkArea),
    (∀ c ∈ pre, c.file ≠ none) → bad.file = none →
    ∃ fs2, writeInputs (pre ++ bad :: post) i fs
        = (.error (.missingSource bad.name), fs2) ∧
      (∀ j, j < pre.length →
        readFS fs2 (.input (i + j)) =
          some (.bin ((pre.getD j dummyClip).file.getD []))) ∧
      (∀ k, (∀ j, j < pre.length → k ≠ .input (i + j)) →
        readFS fs2 k = readFS fs k)
  | [], bad, post, i, fs, _, hbad => by
    refine ⟨fs, ?_, ?_, ?_⟩
    · rw [List.nil_append, writeInputs, hbad]
    · intro j hj
      exact absurd hj (Nat.not_lt_zero _)
    · intro k _
      rfl
  | c :: pre, bad, post, i, fs, hpre, hbad => by
    obtain ⟨b, hb⟩ := Option.ne_none_iff_exists'.mp
      (hpre c (List.mem_cons_self _ _))
    obtain ⟨fs2, heq, hhit, hmiss⟩ := writeInputs_error pre bad post (i + 1)
      (writeFS fs (.input i) (.bin b))
      (fun x hx => hpre x (List.mem_cons_of_mem _ hx)) hbad
    refine ⟨fs2, ?_, ?_, ?_⟩
    · rw [List.cons_append, writeInputs, hb]
      dsimp only
      rw [heq]
    · intro j hj
      match j with
      | 0 =>
        have hk : ∀ j2, j2 < pre.length → FsName.input (i + 0) ≠
            FsName.input (i + 1 + j2) := by
          intro j2 _ hc
          rw [FsName.input.injEq] at hc
          omega
        rw [hmiss _ hk, readFS_writeFS, if_pos (by rw [Nat.add_zero])]
        rw [List.getD_cons_zero, hb]
        rfl
      | j2 + 1 =>
        have hrw : i + (j2 + 1) = i + 1 + j2 := by omega
        rw [hrw, hhit j2 (by simpa using hj), List.getD_cons_succ]
    · intro k hk
      have hk2 : ∀ j, j < pre.length → k ≠ .input (i + 1 + j) := by
        intro j hj
        have := hk (j + 1) (by simpa using hj)
        rwa [show i + (j + 1) = i + 1 + j by omega] at this
      rw [hmiss k hk2, readFS_writeFS,
        if_neg (fun hik => hk 0 (by simp) (by rw [← hik, Nat.add_zero]))]

/-- Reading back the manifest entries yields the clips' bytes in order. -/
lemma readAll_inputs : ∀ (clips : List VideoClip) (i : Nat) (fs : WorkArea),
    (∀ j, j < clips.length →
      readFS fs (.input (i + j)) =
        some (.bin ((clips.getD j dummyClip).file.getD []))) →
    readAll (inputNamesFrom i clips) fs
      = some (clips.map (fun c => c.file.getD []))
  | [], _, _, _ => rfl
  | c :: rest, i, fs, h => by
    rw [inputNamesFrom, readAll]
    have h0 := h 0 (by simp)
    rw [Nat.add_zero] at h0
    rw [h0]
    dsimp only
    have hrest := readAll_inputs rest (i + 1) fs (fun j hj => by
      have := h (j + 1) (by simpa using hj)
      rwa [show i + (j + 1) = i + 1 + j by omega, List.getD_cons_succ] at this)
    rw [hrest, List.map_cons, Option.map_some', List.getD_cons_zero]

/-- The registration phase's verdict is the first clip without a file. -/
lemma writeInputs_fst_find : ∀ (clips : List VideoClip) (i : Nat) (fs : WorkArea),
    (writeInputs clips i fs).1
      = (match clips.find? (fun c => c.file.isNone) with
         | some c => .error (.missingSource c.name)
         | none => .ok (inputNamesFrom i clips))
  | [], _, _ => rfl
  | c :: rest, i, fs => by
    rw [writeInputs]
    cases hb : c.file with
    | none =>
      rw [List.find?_cons_of_pos _ (by rw [hb]; rfl)]
    | some b =>
      rw [List.find?_cons_of_neg _ (by simp [hb])]
      have hr := writeInputs_fst_find rest (i + 1)
        (writeFS fs (.input i) (.bin b))
      rcases hw : writeInputs rest (i + 1) (writeFS fs (.input i) (.bin b))
        with ⟨res, fs2⟩
      rw [hw] at hr
      dsimp only
      rw [hw]
      dsimp only at hr
      cases hfind : rest.find? (fun c => c.file.isNone) with
      | some cbad =>
        rw [hfind] at hr
        dsimp only at hr
        rw [hr]
      | none =>
        rw [hfind] at hr
        dsimp only at hr
        rw [hr]
        rfl

/-- After a successful registration of all inputs and the manifest, the
concat command reads back exactly the sequence's buffers, logs the
invocation, and writes the output on engine success. -/
lemma export_setup (engine : Engine) (seq : Sequence) (st : MuxState)
    (hall : ∀ c ∈ seq.clips, c.file ≠ none) :
    ∃ fs2,
      writeInputs seq.clips 0 st.fs = (.ok (inputNamesFrom 0 seq.clips), fs2) ∧
      (∀ j, j < seq.clips.length → readFS fs2 (.input j)
        = some (.bin ((seq.clips.getD j dummyClip).file.getD []))) ∧
      (∀ k, (∀ j, j < seq.clips.length → k ≠ .input j) →
        readFS fs2 k = readFS st.fs k) ∧
      execConcat engine
          ⟨writeFS fs2 .listFile (.txt (inputNamesFrom 0 seq.clips)), st.execLog⟩
        = (match engine (seqInputs seq) with
           | some out => (.ok (),
              ⟨writeFS (writeFS fs2 .listFile (.txt (inputNamesFrom 0 seq.clips)))
                .output (.bin out), st.execLog ++ [seqInputs seq]⟩)
           | none => (.error .engineError,
              ⟨writeFS fs2 .listFile (.txt (inputNamesFrom 0 seq.clips)),
                st.execLog ++ [seqInputs seq]⟩)) := by
  obtain ⟨fs2, heq, hhit, hmiss⟩ := writeInputs_ok seq.clips 0 st.fs hall
  have hhit0 : ∀ j, j < seq.clips.length → readFS fs2 (.input j)
      = some (.bin ((seq.clips.getD j dummyClip).file.getD [])) := by
    intro j hj
    have := hhit j hj
    rwa [Nat.zero_add] at this
  have hmiss0 : ∀ k, (∀ j, j < seq.clips.length → k ≠ .input j) →
      readFS fs2 k = readFS st.fs k := by
    intro k hk
    refine hmiss k ?_
    intro j hj
    have := hk j hj
    rwa [Nat.zero_add]
  refine ⟨fs2, heq, hhit0, hmiss0, ?_⟩
  rw [execConcat]
  dsimp only
  rw [readFS_writeFS, if_pos rfl]
  dsimp only
  have hread : readAll (inputNamesFrom 0 seq.clips)
      (writeFS fs2 .listFile (.txt (inputNamesFrom 0 seq.clips)))
      = some (seqInputs seq) := by
    refine readAll_inputs seq.clips 0 _ ?_
    intro j hj
    rw [Nat.zero_add, readFS_writeFS, if_neg (by intro h; cases h)]
    exact hhit0 j hj
  rw [hread]

/-- The value and invocation log of `exportSequenceM` do not depend on the
initial adapter state: the export fails on the first clip without a file and
otherwise invokes the engine exactly once on the sequence's buffers,
returning the named output on success. -/
lemma exportSequenceM_result (engine : Engine) (seq : Sequence)
    (index : Option Nat) (st : MuxState) :
    (exportSequenceM engine seq index st).1
      = (match exportResult engine seq with
         | .ok out => .ok (exportName seq index, out)
         | .error e => .error e) ∧
    (exportSequenceM engine seq index st).2.execLog
      = st.execLog ++ seqInvocations seq := by
  cases hfind : seq.clips.find? (fun c => c.file.isNone) with
  | some c =>
    have h1 := writeInputs_fst_find seq.clips 0 st.fs
    rw [hfind] at h1
    dsimp only at h1
    rcases hw : writeInputs seq.clips 0 st.fs with ⟨res, fs1⟩
    rw [hw] at h1
    dsimp only at h1
    rw [exportSequenceM, hw, h1]
    dsimp only
    rw [exportResult, seqInvocations, hfind]
    exact ⟨rfl, by rw [List.append_nil]⟩
  | none =>
    have hall : ∀ cc ∈ seq.clips, cc.file ≠ none := by
      intro cc hcc hnone
      have := List.find?_eq_none.mp hfind cc hcc
      rw [hnone] at this
      exact this rfl
    obtain ⟨fs2, heq, hhit, hmiss, hexec⟩ := export_setup engine seq st hall
    rw [exportSequenceM, heq]
    dsimp only
    rw [hexec, exportResult, seqInvocations, hfind]
    dsimp only
    cases heng : engine (seqInputs seq) with
    | some out =>
      dsimp only
      rw [readFS_writeFS, if_pos rfl]
      dsimp only
      cases index with
      | some i => exact ⟨rfl, rfl⟩
      | none => exact ⟨rfl, rfl⟩
    | none =>
      dsimp only
      exact ⟨rfl, rfl⟩

/-- C5 (amended, single-export mode): when every clip resolves to bytes and
the engine succeeds, `exportSequence` without a batch index delivers the one
buffer named from the sequence id, logs exactly one engine invocation, and
leaves the working area empty: inputs, manifest and output are all deleted
before it returns. -/
theorem exportOne_single_success (engine : Engine) (seq : Sequence)
    (log : List (List Bytes)) (out : Bytes)
    (hall : ∀ c ∈ seq.clips, c.file ≠ none)
    (heng : engine (seqInputs seq) = some out) :
    exportSequenceM engine seq none ⟨[], log⟩
      = (.ok (exportName seq none, out), ⟨[], log ++ [seqInputs seq]⟩) := by
  obtain ⟨fs2, heq, hhit, hmiss, hexec⟩ :=
    export_setup engine seq ⟨[], log⟩ hall
  rw [exportSequenceM]
  dsimp only
  rw [heq]
  dsimp only
  rw [hexec, heng]
  dsimp only
  rw [readFS_writeFS, if_pos rfl]
  dsimp only
  have hempty : deleteFS (deleteFS (deleteInputs seq.clips.length
      (writeFS (writeFS fs2 .listFile (.txt (inputNamesFrom 0 seq.clips)))
        .output (.bin out))) .listFile) .output = [] := by
    apply workArea_empty_of_reads_none
    intro k
    rw [readFS_deleteFS]
    by_cases hko : k = FsName.output
    · rw [if_pos hko]
    rw [if_neg hko, readFS_deleteFS]
    by_cases hkl : k = FsName.listFile
    · rw [if_pos hkl]
    rw [if_neg hkl]
    by_cases hki : ∃ j, j < seq.clips.length ∧ k = FsName.input j
    · obtain ⟨j, hj, rfl⟩ := hki
      exact readFS_deleteInputs_hit _ _ _ hj
    · push_neg at hki
      rw [readFS_deleteInputs_miss _ _ _ (fun j hj => hki j hj),
        readFS_writeFS, if_neg (fun h => hko h.symm), readFS_writeFS,
        if_neg (fun h => hkl h.symm),
        hmiss k (fun j hj => hki j hj)]
      rfl
  rw [hempty]

/-- C5 witness: the single-mode export of a two-clip sequence from an empty
working area returns its named buffer and ends with the area empty. -/
theorem exportOne_single_success_witness :
    exportSequenceM engineOk goodSeq none ⟨[], []⟩
      = (.ok (exportName goodSeq none, [1, 2]),
         ⟨[], [] ++ [seqInputs goodSeq]⟩) :=
  exportOne_single_success engineOk goodSeq [] [1, 2] (by decide) rfl

/-- C5 counterexample: the same successful export in batch mode (the mode
`exportBatch` uses) returns its buffer before the cleanup loop, leaving the
input, manifest and output entries behind in the working area. -/
theorem exportOne_batch_leak_cex :
    (exportSequenceM engineOk goodSeq (some 0) ⟨[], []⟩).1
        = .ok ("restitched 1.mp4", [1, 2]) ∧
      (exportSequenceM engineOk goodSeq (some 0) ⟨[], []⟩).2.fs ≠ [] := by
  decide

/-- C6 (amended): a sequence whose first missing-file clip is `bad` fails
with `MissingSource` naming that clip, but the failure path performs no
cleanup: the inputs registered before the failure are still in the working
area when the error propagates (only names never registered read empty). -/
theorem exportOne_missing_leaves_entries (engine : Engine) (seq : Sequence)
    (index : Option Nat) (log : List (List Bytes))
    (pre : List VideoClip) (bad : VideoClip) (post : List VideoClip)
    (hsplit : seq.clips = pre ++ bad :: post)
    (hpre : ∀ c ∈ pre, c.file ≠ none) (hbad : bad.file = none) :
    ∃ fsFinal,
      exportSequenceM engine seq index ⟨[], log⟩
        = (.error (.missingSource bad.name), ⟨fsFinal, log⟩) ∧
      (∀ j, j < pre.length → readFS fsFinal (.input j)
        = some (.bin ((pre.getD j dummyClip).file.getD []))) ∧
      (∀ k, (∀ j, j < pre.length → k ≠ .input j) → readFS fsFinal k = none) := by
  obtain ⟨fs2, heq, hhit, hmiss⟩ := writeInputs_error pre bad post 0 [] hpre hbad
  refine ⟨fs2, ?_, ?_, ?_⟩
  · rw [exportSequenceM]
    dsimp only
    rw [hsplit, heq]
  · intro j hj
    have hh := hhit j hj
    rwa [Nat.zero_add] at hh
  · intro k hk
    have hm := hmiss k (fun j hj => by rw [Nat.zero_add]; exact hk j hj)
    rw [hm]
    rfl

/-- C6 witness: exporting the sequence whose second clip has no bytes fails
with `MissingSource` for that clip. -/
theorem exportOne_missing_witness :
    (exportSequenceM engineOk badSeq none ⟨[], []⟩).1
      = .error (.missingSource noFileClip.name) := by
  obtain ⟨fsF, heq, -, -⟩ := exportOne_missing_leaves_entries engineOk badSeq
    none [] [hookClipA] noFileClip [] rfl (by decide) rfl
  rw [heq]

/-- C6 counterexample: after the `MissingSource` failure the working area is
not empty — the input registered before the failure is still there, because
the source's catch block does not clean up. -/
theorem exportOne_missing_cex :
    (exportSequenceM engineOk badSeq none ⟨[], []⟩).1
        = .error (.missingSource "nofile") ∧
      (exportSequenceM engineOk badSeq none ⟨[], []⟩).2.fs ≠ [] := by
  decide

/-- The batch loop: on success one archive entry and one engine invocation
per sequence, in list order; on failure, the k-th export (after k successes)
aborts the loop with its error, the invocation log covering exactly the
sequences processed up to and including the failing one. -/
lemma downloadLoop_spec (engine : Engine) :
    ∀ (seqs : List Sequence) (i : Nat) (entries : List (String × Bytes))
      (st : MuxState),
      (∀ res st2, downloadLoop engine seqs i entries st = (.ok res, st2) →
        (∀ s ∈ seqs, (exportResult engine s).isOk = true) ∧
        res.length = entries.length + seqs.length ∧
        st2.execLog = st.execLog ++ (seqs.map seqInvocations).flatten) ∧
      (∀ e st2, downloadLoop engine seqs i entries st = (.error e, st2) →
        ∃ k, k < seqs.length ∧
          (∀ s ∈ seqs.take k, (exportResult engine s).isOk = true) ∧
          exportResult engine (seqs.getD k default) = .error e ∧
          st2.execLog = st.execLog
            ++ ((seqs.take (k + 1)).map seqInvocations).flatten)
  | [], i, entries, st => by
    constructor
    · intro res st2 h
      rw [downloadLoop] at h
      injection h with h1 h2
      injection h1 with h1
      subst h1
      subst h2
      exact ⟨by simp, by simp, by simp⟩
    · intro e st2 h
      rw [downloadLoop] at h
      exact absurd h (by simp)
  | seq :: rest, i, entries, st => by
    rcases hr : exportSequenceM engine seq (some i) st with ⟨r, st1⟩
    have hres := exportSequenceM_result engine seq (some i) st
    rw [hr] at hres
    dsimp only at hres
    obtain ⟨hres1, hreslog⟩ := hres
    cases hex : exportResult engine seq with
    | ok out =>
      rw [hex] at hres1
      dsimp only at hres1
      subst hres1
      have hunfold : downloadLoop engine (seq :: rest) i entries st
          = downloadLoop engine rest (i + 1)
              (entries ++ [("restitched " ++ toString (i + 1) ++ ".mp4", out)])
              st1 := by
        rw [downloadLoop, hr]
      have ih := downloadLoop_spec engine rest (i + 1)
        (entries ++ [("restitched " ++ toString (i + 1) ++ ".mp4", out)]) st1
      constructor
      · intro res st2 h
        rw [hunfold] at h
        obtain ⟨hok, hlen, hlog⟩ := ih.1 res st2 h
        refine ⟨?_, ?_, ?_⟩
        · intro s hs
          rcases List.mem_cons.mp hs with rfl | hs
          · rw [hex]
            rfl
          · exact hok s hs
        · rw [hlen]
          simp only [List.length_append, List.length_cons, List.length_nil]
          omega
        · rw [hlog, hreslog, List.map_cons, List.flatten_cons,
            List.append_assoc]
      · intro e st2 h
        rw [hunfold] at h
        obtain ⟨k, hk, htake, hget, hlog⟩ := ih.2 e st2 h
        refine ⟨k + 1, by simpa using hk, ?_, ?_, ?_⟩
        · intro s hs
          rw [List.take_succ_cons] at hs
          rcases List.mem_cons.mp hs with rfl | hs
          · rw [hex]
            rfl
          · exact htake s hs
        · rw [List.getD_cons_succ]
          exact hget
        · rw [hlog, hreslog, List.take_succ_cons, List.map_cons,
            List.flatten_cons, List.append_assoc]
    | error e2 =>
      rw [hex] at hres1
      dsimp only at hres1
      subst hres1
      have hunfold : downloadLoop engine (seq :: rest) i entries st
          = (.error e2, st1) := by
        rw [downloadLoop, hr]
      constructor
      · intro res st2 h
        rw [hunfold] at h
        exact absurd h (by simp)
      · intro e st2 h
        rw [hunfold] at h
        injection h with h1 h2
        injection h1 with h1
        subst h1
        subst h2
        refine ⟨0, by simp, by simp, ?_, ?_⟩
        · rw [List.getD_cons_zero]
          exact hex
        · rw [hreslog]
          simp

/-- C7 (amended): `downloadAllSequences` is blocked exactly on an empty
list; otherwise it exports strictly sequentially in list order. When it
delivers an archive there is one entry and one engine invocation per
sequence; when an export fails, the batch aborts at the first failing
sequence, propagates only that export's error kind (the failing sequence's
identity is not part of the report), delivers no archive, and has invoked
the engine once per sequence processed before the failure (and once for the
failing sequence itself unless it failed on a missing source, which aborts
before the engine is reached). -/
theorem downloadAll_spec (engine : Engine) (seqs : List Sequence)
    (st : MuxState) :
    (downloadAllSequences engine seqs st = (.blocked, st) ↔ seqs = []) ∧
    (∀ entries st2,
      downloadAllSequences engine seqs st = (.archive entries, st2) →
      (∀ s ∈ seqs, (exportResult engine s).isOk = true) ∧
      entries.length = seqs.length ∧
      st2.execLog = st.execLog ++ (seqs.map seqInvocations).flatten) ∧
    (∀ e st2, downloadAllSequences engine seqs st = (.failed e, st2) →
      ∃ k, k < seqs.length ∧
        (∀ s ∈ seqs.take k, (exportResult engine s).isOk = true) ∧
        exportResult engine (seqs.getD k default) = .error e ∧
        st2.execLog = st.execLog
          ++ ((seqs.take (k + 1)).map seqInvocations).flatten) := by
  by_cases hemp : seqs.isEmpty = true
  · have hnil : seqs = [] := List.isEmpty_iff.mp hemp
    subst hnil
    refine ⟨by simp [downloadAllSequences], ?_, ?_⟩
    · intro entries st2 h
      rw [downloadAllSequences] at h
      exact absurd h (by simp)
    · intro e st2 h
      rw [downloadAllSequences] at h
      exact absurd h (by simp)
  · have hloop := downloadLoop_spec engine seqs 0 [] st
    rcases hl : downloadLoop engine seqs 0 [] st with ⟨res, stL⟩
    refine ⟨?_, ?_, ?_⟩
    · constructor
      · intro h
        rw [downloadAllSequences, if_neg hemp, hl] at h
        exfalso
        cases res with
        | ok entries => exact absurd h (by simp)
        | error e => exact absurd h (by simp)
      · intro h
        exact absurd (List.isEmpty_iff.mpr h) hemp
    · intro entries st2 h
      rw [downloadAllSequences, if_neg hemp, hl] at h
      cases res with
      | ok entriesL =>
        have h2 := h
        dsimp only at h2
        injection h2 with hb hst
        injection hb with hb
        subst hb
        subst hst
        obtain ⟨ha, hb2, hc2⟩ := hloop.1 _ _ hl
        exact ⟨ha, by simpa using hb2, hc2⟩
      | error e => exact absurd h (by simp)
    · intro e st2 h
      rw [downloadAllSequences, if_neg hemp, hl] at h
      cases res with
      | ok entriesL => exact absurd h (by simp)
      | error eL =>
        have h2 := h
        dsimp only at h2
        injection h2 with hb hst
        injection hb with hb
        subst hb
        subst hst
        exact hloop.2 _ _ hl

/-- C7 witness: a one-sequence batch whose export fails on a missing source
aborts at that sequence with its error kind and no archive. -/
theorem downloadAll_spec_witness :
    ∃ k, k < ([badSeqA] : List Sequence).length ∧
      (∀ s ∈ ([badSeqA] : List Sequence).take k,
        (exportResult engineOk s).isOk = true) ∧
      exportResult engineOk (([badSeqA] : List Sequence).getD k default)
        = .error (.missingSource "nofile") ∧
      (MuxState.mk [] []).execLog = (MuxState.mk [] []).execLog
        ++ ((([badSeqA] : List Sequence).take (k + 1)).map
          seqInvocations).flatten :=
  (downloadAll_spec engineOk [badSeqA] ⟨[], []⟩).2.2 (.missingSource "nofile")
    ⟨[], []⟩ (by decide)

/-- C7 counterexample: two one-sequence batches whose failing sequences have
different identities produce the very same batch outcome, so the failure
report cannot identify the failing sequence: the source's catch block only
propagates the thrown error (which names the clip, not the sequence). -/
theorem downloadAll_identity_cex :
    badSeqA.id ≠ badSeqB.id ∧
      downloadAllSequences engineOk [badSeqA] ⟨[], []⟩
        = downloadAllSequences engineOk [badSeqB] ⟨[], []⟩ := by
  decide
